import Mathlib

/-!
Verification of the portable ABI and representation layer of `lib/nimbase.h`
against its natural-language specification.

The development shallowly embeds the header's definitions:
* the bias-trick float-to-int conversion (`float64ToInt32`, `float32ToInt32`),
  with IEEE-754 double arithmetic modelled exactly over `ℚ` (an addition whose
  result lies in the binade `[2^36, 2^37)` rounds the exact rational sum to the
  nearest multiple of `2^-16`, ties to even);
* the calling-convention and linkage macros (`N_CDECL` .. `N_SAFECALL`,
  `N_NIMCALL`, `N_NOCONV`, `N_CLOSURE`, `N_LIB_EXPORT`, `N_LIB_IMPORT`) as
  functions from a toolchain identity to keyword spellings;
* `zeroMem`, `equalMem` (via `memset` / `memcmp` over byte lists) and the
  `STRING_LITERAL` constructor;
* the layouts of `TStringDesc` and `TGenericSeq`.
-/

namespace Nimbase

/-! ## IEEE-754 rounding machinery for the bias trick -/

/-- Round a rational to the nearest integer, ties to even.  This is the IEEE
round-to-nearest-even rule at integer granularity. -/
def rneQ (q : ℚ) : ℤ :=
  if q - ⌊q⌋ < 1 / 2 then ⌊q⌋
  else if 1 / 2 < q - ⌊q⌋ then ⌊q⌋ + 1
  else if Even ⌊q⌋ then ⌊q⌋ else ⌊q⌋ + 1

/-- The bias constant of the conversion trick: `68719476736.0 * 1.5`
(that is `1.5 * 2^36`), from the body of `float64ToInt32`. -/
def floatBias : ℚ := 68719476736 * (3 / 2)

/-- The bias scaled into ulp units: `floatBias * 2^16 = 1.5 * 2^52`. -/
def floatBiasUlps : ℤ := 6755399441055744

/-- IEEE double addition producing a result in the binade `[2^36, 2^37)`
rounds the exact sum to the nearest multiple of `2^-16` (the unit in the last
place there), ties to even.  `roundUlps q` is that rounded value scaled by
`2^16`, i.e. an integer count of ulps. -/
def roundUlps (q : ℚ) : ℤ := rneQ (q * 65536)

/-- The value held by `val` after `val = val + 68719476736.0*1.5;`, in ulp
units (`2^-16`).  Faithful to IEEE semantics whenever the sum lies in the
binade `[2^36, 2^37)` — the exponent window the bias trick reserves. -/
def addBias (x : ℚ) : ℤ := roundUlps (x + floatBias)

/-- The 64-bit IEEE-754 pattern of the double with value `s * 2^-16` for
`s ∈ [2^52, 2^53)` (value in `[2^36, 2^37)`): sign bit 0, biased exponent
`36 + 1023`, mantissa `s - 2^52`. -/
def doubleBits (s : ℤ) : ℤ := (36 + 1023) * 2 ^ 52 + (s - 2 ^ 52)

/-- `NIM_IMAN`: the index of the 32-bit word holding the integer part —
`1` when `NIM_BIG_ENDIAN` is defined, `0` otherwise. -/
def NIM_IMAN (bigEndian : Bool) : ℕ := if bigEndian then 1 else 0

/-- Reading `((NS32*)&val)[i]`: the two 32-bit words of the stored 8-byte
double, in memory order determined by the platform byte order.  The word
value is returned as its unsigned 32-bit contents. -/
def doubleWord (bigEndian : Bool) (bits : ℤ) (i : ℕ) : ℤ :=
  if bigEndian then (if i = 0 then bits / 2 ^ 32 % 2 ^ 32 else bits % 2 ^ 32)
  else (if i = 0 then bits % 2 ^ 32 else bits / 2 ^ 32 % 2 ^ 32)

/-- Reinterpreting an unsigned 32-bit word as the signed `NS32`. -/
def asInt32 (w : ℤ) : ℤ := if w < 2 ^ 31 then w else w - 2 ^ 32

/-- The C arithmetic right shift `>> 16` on a signed 32-bit value: floor
division by `2^16` (on `ℤ`, `/` is Euclidean division, which agrees with
floor division for the positive divisor `65536`). -/
def shiftRight16 (v : ℤ) : ℤ := v / 65536

/-- `float64ToInt32` from `nimbase.h`:
`val = val + 68719476736.0*1.5; return ((NS32*)&val)[NIM_IMAN] >> 16;`.
Parameterised by the platform byte order that fixes `NIM_IMAN`. -/
def float64ToInt32 (bigEndian : Bool) (x : ℚ) : ℤ :=
  shiftRight16 (asInt32 (doubleWord bigEndian (doubleBits (addBias x)) (NIM_IMAN bigEndian)))

/-- `float32ToInt32` from `nimbase.h`: `return float64ToInt32((double)val);`.
Widening a float to a double is exact, so on the rational model the cast is
the identity. -/
def float32ToInt32 (bigEndian : Bool) (x : ℚ) : ℤ := float64ToInt32 bigEndian x

/-- The comparison baseline of the specification, stated in the spec's own
words: the platform's native round-to-nearest-even double to int32
conversion. -/
def roundNearestEvenSpec (x : ℚ) : ℤ := rneQ x

/-! ### Basic facts about `rneQ` -/

theorem rneQ_intCast (m : ℤ) : rneQ (m : ℚ) = m := by
  simp [rneQ]

theorem rneQ_ge_floor (q : ℚ) : ⌊q⌋ ≤ rneQ q := by
  unfold rneQ
  split_ifs <;> omega

theorem rneQ_le_floor_add_one (q : ℚ) : rneQ q ≤ ⌊q⌋ + 1 := by
  unfold rneQ
  split_ifs <;> omega

theorem rneQ_mono {a b : ℚ} (h : a ≤ b) : rneQ a ≤ rneQ b := by
  rcases lt_or_eq_of_le (Int.floor_le_floor h) with hf | hf
  · have h1 := rneQ_le_floor_add_one a
    have h2 := rneQ_ge_floor b
    omega
  · have hta : a - ⌊a⌋ ≤ b - ⌊b⌋ := by
      have := hf
      push_cast [← hf]
      linarith
    unfold rneQ
    rw [← hf]
    split_ifs with h1 h2 h3 h4 h5 h6 h7 h8 h9 h10 h11 h12 <;>
      first
        | omega
        | linarith

theorem rneQ_le_of_le {q : ℚ} {m : ℤ} (h : q ≤ (m : ℚ)) : rneQ q ≤ m := by
  have := rneQ_mono h
  rwa [rneQ_intCast] at this

theorem le_rneQ_of_le {q : ℚ} {m : ℤ} (h : (m : ℚ) ≤ q) : m ≤ rneQ q := by
  have := rneQ_mono h
  rwa [rneQ_intCast] at this

/-! ### Closed form of the conversion on the safe range

The extracted word is 32 bits wide and is shifted right by 16, so the trick
yields the intended value exactly when the biased sum stays within `2^31`
ulps of the bias, i.e. for inputs in `[-2^15, 2^15 - 2^-16]`.  This is the
concrete safe range derived from the bias magnitude. -/

theorem addBias_lb {x : ℚ} (h : -(2 ^ 15) ≤ x) :
    floatBiasUlps - 2 ^ 31 ≤ addBias x := by
  unfold addBias roundUlps
  apply le_rneQ_of_le
  have hm := mul_le_mul_of_nonneg_right h (show (0 : ℚ) ≤ 65536 by norm_num)
  push_cast [floatBiasUlps]
  rw [add_mul]
  norm_num [floatBias] at hm ⊢
  linarith

theorem addBias_ub {x : ℚ} (h : x ≤ 2 ^ 15 - 1 / 65536) :
    addBias x ≤ floatBiasUlps + 2 ^ 31 - 1 := by
  unfold addBias roundUlps
  apply rneQ_le_of_le
  have hm := mul_le_mul_of_nonneg_right h (show (0 : ℚ) ≤ 65536 by norm_num)
  push_cast [floatBiasUlps]
  rw [add_mul]
  norm_num [floatBias] at hm ⊢
  linarith

theorem float64ToInt32_closed (be : Bool) {x : ℚ} (h1 : -(2 ^ 15) ≤ x)
    (h2 : x ≤ 2 ^ 15 - 1 / 65536) :
    float64ToInt32 be x = (addBias x - floatBiasUlps) / 65536 := by
  have lb := addBias_lb h1
  have ub := addBias_ub h2
  have key : asInt32 (doubleBits (addBias x) % 4294967296) = addBias x - floatBiasUlps := by
    unfold doubleBits asInt32
    unfold floatBiasUlps at lb ub ⊢
    split_ifs <;> omega
  unfold float64ToInt32 shiftRight16
  cases be <;> simp [doubleWord, NIM_IMAN, key]

theorem addBias_intCast_ulps (n : ℤ) :
    addBias ((n : ℚ) / 65536) = n + floatBiasUlps := by
  unfold addBias roundUlps
  have e : ((n : ℚ) / 65536 + floatBias) * 65536 = ((n + floatBiasUlps : ℤ) : ℚ) := by
    push_cast [floatBias, floatBiasUlps]
    field_simp
    ring
  rw [e, rneQ_intCast]

/-! ## The conversion claims -/

/-- C1 counterexample: at the half-integer tie `x = 1.5` — one of the tie
inputs the claim itself enumerates, squarely inside any safe range derived
from the bias — `float64ToInt32` returns `1`, whereas the platform's native
round-to-nearest-even double-to-int32 conversion returns `2`.  The routine
floors instead of rounding to nearest even. -/
theorem float64ToInt32_ne_roundNearestEven_at_three_halves :
    float64ToInt32 false (3 / 2) = 1 ∧ roundNearestEvenSpec (3 / 2) = 2 ∧
      float64ToInt32 false (3 / 2) ≠ roundNearestEvenSpec (3 / 2) := by
  have hf : float64ToInt32 false (3 / 2) = 1 := by
    have h32 : (3 / 2 : ℚ) = ((98304 : ℤ) : ℚ) / 65536 := by norm_num
    rw [float64ToInt32_closed false (by norm_num) (by norm_num), h32,
      addBias_intCast_ulps]
    norm_num [floatBiasUlps]
  have hr : roundNearestEvenSpec (3 / 2) = 2 := by
    unfold roundNearestEvenSpec rneQ
    have hfl : ⌊(3 / 2 : ℚ)⌋ = 1 := by norm_num [Int.floor_eq_iff]
    rw [hfl]
    norm_num
  refine ⟨hf, hr, ?_⟩
  rw [hf, hr]
  omega

/-- C1 (amended): on the safe range the conversion computes the floor, not
the native round-to-nearest-even.  For every representable double that is an
exact multiple of `2^-16` — `x = n * 2^-16` with `-2^31 ≤ n < 2^31`, i.e.
`x ∈ [-2^15, 2^15 - 2^-16]`, the range in which the bias trick's 16.16
extraction is exact — `float64ToInt32 x = ⌊x⌋` on either byte order.  It
therefore agrees with the native conversion exactly where that conversion
returns the floor (so at `0.0`, `0.5` and `2.5` but not at `-0.5` or
`1.5`). -/
theorem float64ToInt32_eq_floor_on_safe_range (be : Bool) (n : ℤ)
    (h1 : -(2 ^ 31) ≤ n) (h2 : n < 2 ^ 31) :
    float64ToInt32 be ((n : ℚ) / 65536) = ⌊((n : ℚ) / 65536)⌋ := by
  have hx1 : -(2 ^ 15 : ℚ) ≤ (n : ℚ) / 65536 := by
    rw [le_div_iff₀ (show (0 : ℚ) < 65536 by norm_num)]
    have : ((-(2 ^ 31) : ℤ) : ℚ) ≤ (n : ℚ) := by exact_mod_cast h1
    push_cast at this ⊢
    linarith
  have hx2 : (n : ℚ) / 65536 ≤ 2 ^ 15 - 1 / 65536 := by
    rw [div_le_iff₀ (show (0 : ℚ) < 65536 by norm_num)]
    have : (n : ℚ) ≤ ((2 ^ 31 - 1 : ℤ) : ℚ) := by
      exact_mod_cast (show n ≤ 2 ^ 31 - 1 by omega)
    push_cast at this ⊢
    linarith
  rw [float64ToInt32_closed be hx1 hx2, addBias_intCast_ulps]
  have hsub : n + floatBiasUlps - floatBiasUlps = n := by ring
  rw [hsub]
  rw [show ((65536 : ℚ)) = ((65536 : ℕ) : ℚ) by norm_num,
    Rat.floor_intCast_div_natCast]
  norm_num

theorem float64ToInt32_eq_floor_on_safe_range_witness :
    float64ToInt32 false (((98304 : ℤ) : ℚ) / 65536) = ⌊(((98304 : ℤ) : ℚ) / 65536)⌋ :=
  float64ToInt32_eq_floor_on_safe_range false 98304 (by norm_num) (by norm_num)

/-- C2: `float64ToInt32` computes its result by exactly the claimed steps:
it adds the bias `68719476736.0 * 1.5` to the input, reinterprets the
resulting 64-bit IEEE-754 pattern as two 32-bit words, selects the word by
`NIM_IMAN` (index `1` when `NIM_BIG_ENDIAN` is defined, `0` otherwise) —
which in both byte orders is the word holding the low 32 bits of the
pattern, the one containing the integer value — and arithmetically
right-shifts that word by 16 bits. -/
theorem float64ToInt32_steps (be : Bool) (x : ℚ) :
    float64ToInt32 be x
        = shiftRight16 (asInt32 (doubleBits (roundUlps (x + 68719476736 * (3 / 2))) % 2 ^ 32))
      ∧ NIM_IMAN true = 1 ∧ NIM_IMAN false = 0
      ∧ doubleWord true (doubleBits (addBias x)) (NIM_IMAN true)
          = doubleBits (addBias x) % 2 ^ 32
      ∧ doubleWord false (doubleBits (addBias x)) (NIM_IMAN false)
          = doubleBits (addBias x) % 2 ^ 32 := by
  refine ⟨?_, rfl, rfl, by simp [doubleWord, NIM_IMAN], by simp [doubleWord, NIM_IMAN]⟩
  cases be <;> simp [float64ToInt32, addBias, floatBias, doubleWord, NIM_IMAN]

/-- C8: the `float32` overload widens to `float64` and reuses the double
routine with no further computation.  Widening a float to a double is exact,
so on the rational model the cast is the identity and the overload agrees
with `float64ToInt32` at every input and on either byte order. -/
theorem float32ToInt32_widens (be : Bool) (x : ℚ) :
    float32ToInt32 be x = float64ToInt32 be x := rfl

/-- C9: `float64ToInt32` is monotone on the safe input range
`[-2^15, 2^15 - 2^-16]` (the inputs for which the biased sum stays within
the window of `2^31` ulps around the bias that the 16.16 extraction can
represent): if `x ≤ y` then `float64ToInt32 x ≤ float64ToInt32 y`. -/
theorem float64ToInt32_monotone (be : Bool) {x y : ℚ} (h1 : -(2 ^ 15) ≤ x)
    (h2 : x ≤ y) (h3 : y ≤ 2 ^ 15 - 1 / 65536) :
    float64ToInt32 be x ≤ float64ToInt32 be y := by
  rw [float64ToInt32_closed be h1 (h2.trans h3),
    float64ToInt32_closed be (h1.trans h2) h3]
  have hm : addBias x ≤ addBias y := by
    unfold addBias roundUlps
    apply rneQ_mono
    have := mul_le_mul_of_nonneg_right (add_le_add_right h2 floatBias)
      (show (0 : ℚ) ≤ 65536 by norm_num)
    linarith
  omega

theorem float64ToInt32_monotone_witness :
    float64ToInt32 false 0 ≤ float64ToInt32 false (1 / 2) :=
  float64ToInt32_monotone false (by norm_num) (by norm_num) (by norm_num)

/-! ## Calling-convention resolver

The `N_*` macros of `nimbase.h` branch on `WIN32 || _WIN32` for the five
named conventions and on the compiler identity (`__BORLANDC__`,
`__WATCOMC__`, `__POCC__`, `_MSC_VER`) for `N_NIMCALL`.  A toolchain
identity records exactly the preprocessor symbols those branches test; a
spelling is the convention keyword placed in the declaration (the empty
string for "no modifier"). -/

/-- The calling-convention variants generated code can name. -/
inductive CallConvention where
  | nimcall
  | cdecl
  | stdcall
  | syscall
  | fastcall
  | safecall
  | closure
  | noconv
deriving DecidableEq

/-- The linkage directions of `N_LIB_EXPORT` / `N_LIB_IMPORT`. -/
inductive LinkageDirection where
  | exportDir
  | importDir
deriving DecidableEq

/-- A target platform/toolchain identity: the preprocessor symbols the
header's convention branches test. -/
structure Toolchain where
  windows : Bool
  borlandc : Bool
  watcomc : Bool
  pocc : Bool
  msvc : Bool
deriving DecidableEq

/-- The `N_NIMCALL` branch condition:
`__BORLANDC__ || __WATCOMC__ || __POCC__ || _MSC_VER`
("these compilers have a fastcall so use it"). -/
def hasCompilerFastcall (t : Toolchain) : Bool :=
  t.borlandc || t.watcomc || t.pocc || t.msvc

/-- The keyword the `N_<CONV>` function-declaration macro inserts between the
return type and the name (empty string when the macro inserts nothing). -/
def declSpelling (t : Toolchain) : CallConvention → String
  | .cdecl => if t.windows then "__cdecl" else ""
  | .stdcall => if t.windows then "__stdcall" else ""
  | .syscall => if t.windows then "__syscall" else ""
  | .fastcall => if t.windows then "__fastcall" else ""
  | .safecall => if t.windows then "__safecall" else ""
  | .nimcall => if hasCompilerFastcall t then "__fastcall" else ""
  | .closure => ""
  | .noconv => ""

/-- The keyword the `N_<CONV>_PTR` function-pointer macro places before the
`*` inside the parenthesised declarator (empty when none). -/
def ptrSpelling (t : Toolchain) : CallConvention → String
  | .cdecl => if t.windows then "__cdecl" else ""
  | .stdcall => if t.windows then "__stdcall" else ""
  | .syscall => if t.windows then "__syscall" else ""
  | .fastcall => if t.windows then "__fastcall" else ""
  | .safecall => if t.windows then "__safecall" else ""
  | .nimcall => if hasCompilerFastcall t then "__fastcall" else ""
  | .closure => ""
  | .noconv => ""

/-- `N_LIB_EXPORT` / `N_LIB_IMPORT`: the linkage spelling. -/
def linkageSpelling (t : Toolchain) : LinkageDirection → String
  | .exportDir => if t.windows then "__declspec(dllexport)" else ""
  | .importDir => if t.windows then "__declspec(dllimport)" else "extern"

/-- The convention keywords that exist on some supported toolchain; the
empty string is the "no modifier" spelling. -/
def convKeywords : List String :=
  ["", "__cdecl", "__stdcall", "__syscall", "__fastcall", "__safecall"]

/-- The linkage spellings that exist on some supported toolchain. -/
def linkKeywords : List String :=
  ["", "extern", "__declspec(dllexport)", "__declspec(dllimport)"]

/-- C3: on every toolchain identity, every `CallConvention` variant resolves
to a defined spelling triple — a declaration spelling and a pointer spelling
drawn from the fixed keyword table, and linkage spellings for both
directions — never "no mapping"; and on the non-Windows branch (the single
hardware calling convention case) all five named convention variants
resolve, both as declarations and as pointers, to the same single
no-modifier spelling. -/
theorem callingConvention_resolution_total (t : Toolchain) (cc : CallConvention) :
    (declSpelling t cc ∈ convKeywords ∧ ptrSpelling t cc ∈ convKeywords
      ∧ linkageSpelling t .exportDir ∈ linkKeywords
      ∧ linkageSpelling t .importDir ∈ linkKeywords)
    ∧ (declSpelling { t with windows := false } .cdecl = ""
      ∧ declSpelling { t with windows := false } .stdcall = ""
      ∧ declSpelling { t with windows := false } .syscall = ""
      ∧ declSpelling { t with windows := false } .fastcall = ""
      ∧ declSpelling { t with windows := false } .safecall = ""
      ∧ ptrSpelling { t with windows := false } .cdecl = ""
      ∧ ptrSpelling { t with windows := false } .stdcall = ""
      ∧ ptrSpelling { t with windows := false } .syscall = ""
      ∧ ptrSpelling { t with windows := false } .fastcall = ""
      ∧ ptrSpelling { t with windows := false } .safecall = "") := by
  refine ⟨⟨?_, ?_, ?_, ?_⟩, by simp [declSpelling, ptrSpelling]⟩ <;>
    cases cc <;>
      simp [declSpelling, ptrSpelling, linkageSpelling, convKeywords, linkKeywords] <;>
        split_ifs <;> simp

/-- C7: linkage resolution.  On the non-Windows branch the Import direction
resolves to the `extern` declaration modifier and the Export direction to
nothing extra; on Windows they resolve to `__declspec(dllimport)` and
`__declspec(dllexport)` respectively. -/
theorem linkage_resolution (t : Toolchain) :
    linkageSpelling t .importDir
        = (if t.windows then "__declspec(dllimport)" else "extern")
    ∧ linkageSpelling t .exportDir
        = (if t.windows then "__declspec(dllexport)" else "") := by
  exact ⟨rfl, rfl⟩

/-! ## Memory operations and dynamic buffer layout

A memory region of `n` bytes is a `List ℕ` of length `n` (each entry an
unsigned byte value).  `zeroMem` and `equalMem` are the header's macros over
`memset` and `memcmp`; `STRING_LITERAL` is the compile-time literal
constructor. -/

/-- `memset(a, c, size)`: the contents of the `size`-byte region at `a`
afterwards — every byte set to `c`. -/
def memset (c : ℕ) (size : ℕ) : List ℕ := List.replicate size c

/-- `zeroMem(a, size)`, defined as `memset(a, 0, size)`. -/
def zeroMem (size : ℕ) : List ℕ := memset 0 size

/-- `memcmp` over two `n`-byte regions (given as byte lists of length `n`):
the sign of the first byte difference, `0` when the regions agree. -/
def memcmp : List ℕ → List ℕ → ℤ
  | x :: xs, y :: ys =>
      if x < y then -1 else if y < x then 1 else memcmp xs ys
  | _, _ => 0

/-- `equalMem(a, b, size)`, defined as `(memcmp(a, b, size) == 0)`. -/
def equalMem (a b : List ℕ) : Bool := memcmp a b == 0

/-- `TGenericSeq`: the shared dynamic-buffer header `{ NS len, space; }`. -/
structure TGenericSeq where
  len : ℤ
  space : ℤ
deriving DecidableEq

/-- `TStringDesc`: the text-buffer representation `{ NS len, space;
NIM_CHAR data[...]; }` — the header fields followed by the character data
region. -/
structure TStringDesc where
  len : ℤ
  space : ℤ
  data : List ℕ
deriving DecidableEq

/-- The shared header of a text buffer, read off its first two fields. -/
def TStringDesc.header (s : TStringDesc) : TGenericSeq := ⟨s.len, s.space⟩

/-- `STRING_LITERAL(name, str, length)`: a static constant
`{ NS len, space; NIM_CHAR data[length + 1]; } name = {length, length, str}`.
The `data` member has `length + 1` slots; C aggregate initialisation from
the string literal copies its characters and its terminating NUL and
zero-fills any remaining slots. -/
def STRING_LITERAL (str : List ℕ) (length : ℕ) : TStringDesc :=
  ⟨(length : ℤ), (length : ℤ), (str ++ List.replicate (length + 1) 0).take (length + 1)⟩

/-- The `BufferHeader` invariant of the specification: `0 ≤ len ≤ space`. -/
def headerInvariant (h : TGenericSeq) : Prop := 0 ≤ h.len ∧ h.len ≤ h.space

/-- Little-endian unsigned value of a byte list. -/
def decodeUnsigned : List ℕ → ℕ
  | [] => 0
  | b :: rest => b + 256 * decodeUnsigned rest

/-- The signed machine word `NS` stored in a `w`-byte region: two's
complement reading of the bytes. -/
def decodeNS (bytes : List ℕ) : ℤ :=
  if decodeUnsigned bytes < 2 ^ (8 * bytes.length - 1) then
    (decodeUnsigned bytes : ℤ)
  else (decodeUnsigned bytes : ℤ) - 2 ^ (8 * bytes.length)

/-- Reading a `TGenericSeq` header back from a raw `2*w`-byte region
(`w` the byte width of `NS`): `len` from the first `w` bytes, `space` from
the next `w`. -/
def readHeader (bytes : List ℕ) (w : ℕ) : TGenericSeq :=
  ⟨decodeNS (bytes.take w), decodeNS ((bytes.drop w).take w)⟩

/-- C struct layout without interior padding: each field is
`(name, offset, size)` with offsets accumulated in declaration order.  (The
structs below need no padding: the two `NS` header fields share one type and
the trailing `NIM_CHAR` data has alignment 1.) -/
def layoutFields : ℕ → List (String × ℕ) → List (String × ℕ × ℕ)
  | _, [] => []
  | off, (n, sz) :: rest => (n, off, sz) :: layoutFields (off + sz) rest

/-- The field layout of `TStringDesc` for `NS` width `w`:
`NS len; NS space; NIM_CHAR data[1];`. -/
def TStringDescLayout (w : ℕ) : List (String × ℕ × ℕ) :=
  layoutFields 0 [("len", w), ("space", w), ("data", 1)]

/-- The field layout of `TGenericSeq` for `NS` width `w`:
`NS len, space;`. -/
def TGenericSeqLayout (w : ℕ) : List (String × ℕ × ℕ) :=
  layoutFields 0 [("len", w), ("space", w)]

/-- The data region of the `"hello"` literal. -/
def helloBytes : List ℕ := [104, 101, 108, 108, 111]

/-- The data region of the `"hullo"` literal. -/
def hulloBytes : List ℕ := [104, 117, 108, 108, 111]

/-! ## Memory and buffer claims -/

theorem memcmp_eq_zero_iff {a b : List ℕ} (h : a.length = b.length) :
    memcmp a b = 0 ↔ a = b := by
  induction a generalizing b with
  | nil =>
    cases b with
    | nil => simp [memcmp]
    | cons y ys => simp at h
  | cons x xs ih =>
    cases b with
    | nil => simp at h
    | cons y ys =>
      have h' : xs.length = ys.length := by simpa using h
      rcases Nat.lt_trichotomy x y with hlt | heq | hgt
      · simp [memcmp, hlt, Nat.ne_of_lt hlt]
      · subst heq
        simp [memcmp, ih h']
      · simp [memcmp, Nat.lt_asymm hgt, hgt, (Nat.ne_of_lt hgt).symm]

/-- C4: `equalMem(a, b, n)` over two `n`-byte regions returns `true` exactly
when the regions are byte-for-byte identical (`n = 0` is the vacuous
instance with both regions empty). -/
theorem equalMem_iff_bytes_equal (a b : List ℕ) (h : a.length = b.length) :
    equalMem a b = true ↔ a = b := by
  unfold equalMem
  rw [beq_iff_eq]
  exact memcmp_eq_zero_iff h

theorem equalMem_iff_bytes_equal_witness :
    equalMem [] [] = true
    ∧ equalMem ((STRING_LITERAL helloBytes 5).data.take 5)
        ((STRING_LITERAL helloBytes 5).data.take 5) = true
    ∧ equalMem ((STRING_LITERAL helloBytes 5).data.take 5)
        ((STRING_LITERAL hulloBytes 5).data.take 5) = false := by
  refine ⟨(equalMem_iff_bytes_equal [] [] rfl).mpr rfl,
    (equalMem_iff_bytes_equal _ _ rfl).mpr rfl, ?_⟩
  rcases Bool.eq_false_or_eq_true
      (equalMem ((STRING_LITERAL helloBytes 5).data.take 5)
        ((STRING_LITERAL hulloBytes 5).data.take 5)) with hb | hb
  · exact absurd ((equalMem_iff_bytes_equal _ _ (by decide)).mp hb) (by decide)
  · exact hb

/-- C5: the `BufferHeader` invariant `0 ≤ len ≤ space` holds after both
documented constructions: after `zeroMem` over a raw header region (both
decoded fields are `0`, for any `NS` byte width `w`), and after
`STRING_LITERAL` construction, which moreover always sets the length field
equal to the capacity field. -/
theorem bufferHeader_invariant_after_ops (w : ℕ) (str : List ℕ) (n : ℕ) :
    headerInvariant (readHeader (zeroMem (2 * w)) w)
    ∧ headerInvariant (STRING_LITERAL str n).header
    ∧ (STRING_LITERAL str n).len = (STRING_LITERAL str n).space := by
  have hz : ∀ k, decodeUnsigned (List.replicate k 0) = 0 := by
    intro k
    induction k with
    | zero => rfl
    | succ k ih => simp [List.replicate_succ, decodeUnsigned, ih]
  have hdz : ∀ k, decodeNS (List.replicate k 0) = 0 := by
    intro k
    simp [decodeNS, hz, Nat.two_pow_pos]
  refine ⟨?_, ?_, rfl⟩
  · constructor <;>
      simp [readHeader, zeroMem, memset, hdz]
  · constructor <;> simp [TStringDesc.header, STRING_LITERAL]

/-- C6: `TStringDesc` and `TGenericSeq` begin with the identical two-field
header: a `len` field and a `space` field of the same machine-word size `w`
in the same order at the same offsets (`0` and `w`), for every `NS` width
`w`. -/
theorem header_layout_shared (w : ℕ) :
    (TStringDescLayout w).take 2 = (TGenericSeqLayout w).take 2
    ∧ (TGenericSeqLayout w).take 2 = [("len", 0, w), ("space", w, w)] := by
  constructor <;> simp [TStringDescLayout, TGenericSeqLayout, layoutFields]

/-- C10: a text-buffer literal built by `STRING_LITERAL(name, str, length)`
with a string of the declared length reserves `length + 1` character slots
and stores the NUL character at index `length`: its data region is exactly
the string followed by one NUL byte. -/
theorem stringLiteral_nul_terminated (str : List ℕ) (n : ℕ) (h : str.length = n) :
    (STRING_LITERAL str n).data.length = n + 1
    ∧ (STRING_LITERAL str n).data.getD n 0 = 0
    ∧ (STRING_LITERAL str n).data = str ++ [0] := by
  subst h
  have hdata : (STRING_LITERAL str str.length).data = str ++ [0] := by
    show (str ++ List.replicate (str.length + 1) 0).take (str.length + 1) = str ++ [0]
    rw [show str.length + 1 = str.length + 1 from rfl, List.take_append]
    simp
  refine ⟨?_, ?_, hdata⟩
  · rw [hdata]
    simp
  · rw [hdata, List.getD_append_right _ _ _ _ (le_refl _)]
    simp

theorem stringLiteral_nul_terminated_witness :
    (STRING_LITERAL helloBytes 5).data.length = 5 + 1
    ∧ (STRING_LITERAL helloBytes 5).data.getD 5 0 = 0
    ∧ (STRING_LITERAL helloBytes 5).data = helloBytes ++ [0] :=
  stringLiteral_nul_terminated helloBytes 5 rfl

end Nimbase
